import Mathlib

/-!
Shallow embedding of the pay-per-reveal article server
(`src/server/index.ts`) in Lean 4.

The embedding covers the logic the specification describes:

* the text normalizers (the parse-time `normalize` of `parseArticle`,
  which also strips the hyphen and trims, and the ledger/masking
  normalization used by `maskedContent` and `handleWordReveal`);
* `processText`: whitespace splitting, multi-word phrase range
  detection, and the per-word annotation pass with its two counters
  (`wordIndex` for ids, `wordArrayIndex` for range membership);
* the reveal ledger (`Map<wallet, Map<articleId, Set<word>>>`, modelled
  as a function `String → String → List String` with insert-if-absent
  set semantics);
* `handleWordReveal` and the masked article view of
  `GET /api/article/:index` (`maskedContent`, wrapped as `renderMasked`).

Modelling conventions: JavaScript strings are Lean `String`s;
`toLowerCase` is modelled on the ASCII range (`Char.toLower`), which is
exact for every string the configuration files and examples use;
`text.split(/(\s+)/)` alternates word and separator entries and both
consumers skip separator and empty entries, so the embedding works
directly with the list of maximal non-whitespace runs (`wsRuns`);
`String.prototype.trim` is modelled by `trimWs`, dropping whitespace
from both ends.  Markdown block handling (`marked.lexer`) outside
`processText` and the inline bold/italic stripping of lines 88-92 are
not modelled: every claim under study is about `processText` applied to
a plain paragraph, for which the lexer yields the paragraph text
unchanged.
-/

/-- ASCII lowercasing of one character, the model of what
`String.prototype.toLowerCase` does on the inputs in play. -/
def lowerChar (c : Char) : Char := c.toLower

/-- Model of JavaScript `s.toLowerCase()`. -/
def lowerStr (s : String) : String := String.mk (s.toList.map lowerChar)

/-- Character class of the ledger/masking normalization regex
`/[.,!?;:'"()　-〿＀-￯]/` (codes 46 44 33 63 59 58 39
34 40 41 are `. , ! ? ; : ' " ( )`). -/
def maskPunct (c : Char) : Bool :=
  let n := c.toNat
  n = 46 || n = 44 || n = 33 || n = 63 || n = 59 || n = 58 || n = 39 ||
  n = 34 || n = 40 || n = 41 ||
  (0x3000 ≤ n && n ≤ 0x303F) || (0xFF00 ≤ n && n ≤ 0xFFEF)

/-- Character class of the parse-time normalization regex, which also
strips the hyphen (code 45). -/
def parsePunct (c : Char) : Bool := maskPunct c || c.toNat = 45

/-- The ledger/masking normalization used by `maskedContent` and
`handleWordReveal`: lowercase, then delete the `maskPunct` characters
(source lines 328, 401, 406, 419, 421). -/
def normalizeMask (s : String) : String :=
  String.mk ((s.toList.map lowerChar).filter (fun c => !maskPunct c))

/-- Model of JavaScript `String.prototype.trim`: drop whitespace from
both ends. -/
def trimWs (s : String) : String :=
  String.mk (((s.toList.dropWhile Char.isWhitespace).reverse.dropWhile Char.isWhitespace).reverse)

/-- The parse-time `normalize` of `parseArticle` (source lines 78-79):
lowercase, delete the `parsePunct` characters, trim. -/
def normalizeParse (s : String) : String :=
  trimWs (String.mk ((s.toList.map lowerChar).filter (fun c => !parsePunct c)))

/-- Model of JavaScript `s.includes(' ')` (code 32 is the space). -/
def hasSpace (s : String) : Bool := s.toList.contains (Char.ofNat 32)

/-- Accumulator pass of `wsRuns`: split a character list at whitespace,
returning the maximal non-whitespace runs in order. -/
def splitRunsAux : List Char → List Char → List String
  | [], acc => if acc = [] then [] else [String.mk acc.reverse]
  | c :: cs, acc =>
    if c.isWhitespace then
      if acc = [] then splitRunsAux cs []
      else String.mk acc.reverse :: splitRunsAux cs []
    else splitRunsAux cs (c :: acc)

/-- The maximal non-whitespace runs of a string, in order.  This is the
observable content of `text.split(/(\s+)/)`: the separator entries and
the empty boundary entries are skipped by both consumers in the source
(the annotation pass skips entries with empty `trim`, the phrase
matcher filters entries with empty normalization). -/
def wsRuns (s : String) : List String := splitRunsAux s.toList []

/-- Model of `phraseNormalized.split(/\s+/)` as applied to a trimmed
string: the whitespace-delimited words, except that the empty string
splits to `[""]` exactly as in JavaScript. -/
def phraseWords (s : String) : List String :=
  if s = "" then [""] else wsRuns s

/-- Model of `s.replace(/\s+/g, '-')`: each maximal whitespace run
becomes one hyphen (code 45). -/
def replaceWsRuns (s : String) : String :=
  String.mk ((s.toList.foldl
    (fun (acc : List Char × Bool) c =>
      if c.isWhitespace then
        if acc.2 then acc else (Char.ofNat 45 :: acc.1, true)
      else (c :: acc.1, false))
    (([] : List Char), false)).1.reverse)

/-- The phrase-group identifier of source line 161:
`phrase-` + `blurPhrase.replace(/\s+/g, '-').toLowerCase()`. -/
def mkPhraseId (blurPhrase : String) : String :=
  "phrase-" ++ lowerStr (replaceWsRuns blurPhrase)

/-- Structural kind of an `ArticleWord` (`type` field, source line 48). -/
inductive WordType where
  | text
  | heading
  | listItem
  | paragraphBreak
  | lineBreak
deriving DecidableEq, Repr

/-- The `ArticleWord` record of source lines 43-50. -/
structure ArticleWord where
  id : String
  text : String
  isBlurred : Bool
  phraseId : Option String
  type : WordType
  level : Option Nat
deriving DecidableEq, Repr

/-- The `Article` record of source lines 52-57. -/
structure Article where
  id : String
  title : String
  content : List ArticleWord
  pricePerWord : String
deriving DecidableEq, Repr

/-- One entry of `multiPhraseRanges` (source line 98): a span of
word-array indices matched by the phrase `phrase`. -/
structure PhraseRange where
  startWordIndex : Nat
  endWordIndex : Nat
  phrase : String
deriving DecidableEq, Repr

/-- `singleWordBlurs` (source line 82): configured blur targets whose
normalization has no internal space. -/
def singleWordBlurs (blurredWords : List String) : List String :=
  blurredWords.filter (fun p => !hasSpace (normalizeParse p))

/-- `multiWordBlurs` (source line 83): configured blur targets whose
normalization contains a space. -/
def multiWordBlurs (blurredWords : List String) : List String :=
  blurredWords.filter (fun p => hasSpace (normalizeParse p))

/-- The `normalizedWords` array of source lines 105-107: normalized
word entries with the empty ones dropped, in order.  (The recorded
`originalIndex` is never read in the source and is omitted.) -/
def normalizedWords (words : List String) : List String :=
  (words.map normalizeParse).filter (fun w => w != "")

/-- The scan of source lines 110-126: every start index `i` at which
the normalized word sequence matches `pws`, recorded as a
`PhraseRange` over indices of `normalizedWords`. -/
def findRanges (nw : List String) (pws : List String) (phrase : String) : List PhraseRange :=
  (List.range (nw.length + 1 - pws.length)).filterMap (fun i =>
    if (nw.drop i).take pws.length = pws then
      some { startWordIndex := i, endWordIndex := i + pws.length - 1, phrase := phrase }
    else none)

/-- `multiPhraseRanges` (source lines 98-127): all matched spans of all
multi-word blur targets, in target order then position order. -/
def multiPhraseRanges (blurredWords : List String) (words : List String) : List PhraseRange :=
  (multiWordBlurs blurredWords).flatMap (fun bp =>
    findRanges (normalizedWords words) (phraseWords (normalizeParse bp)) bp)

/-- One annotated token of the pass at source lines 131-167: the word
at word-array index `wai`, given id number `idNum`.  The phrase-range
lookup takes priority over single-word matching, and a matched token
records `phrase-…` as its `phraseId`. -/
def mkTokenAt (ranges : List PhraseRange) (singles : List String) (ty : WordType)
    (level : Option Nat) (word : String) (idNum : Nat) (wai : Nat) : ArticleWord :=
  let wordNormalized := normalizeParse word
  let fromRange :=
    (ranges.find? (fun r =>
      decide (r.startWordIndex ≤ wai) && decide (wai ≤ r.endWordIndex))).map PhraseRange.phrase
  let blurPhrase : Option String :=
    match fromRange with
    | some bp => some bp
    | none => singles.find? (fun sb => normalizeParse sb == wordNormalized)
  { id := "w" ++ toString idNum
    text := word
    isBlurred := blurPhrase.isSome
    phraseId := blurPhrase.map mkPhraseId
    type := ty
    level := level }

/-- The annotation pass of source lines 129-167: walk the word list,
skipping entries whose trim is empty, incrementing the id counter
`wordIndex` and the range counter `wordArrayIndex` once per emitted
token. -/
def processTextGo (ranges : List PhraseRange) (singles : List String) (ty : WordType)
    (level : Option Nat) : List String → Nat → Nat → List ArticleWord
  | [], _, _ => []
  | word :: rest, wordIndex, wordArrayIndex =>
    if trimWs word = "" then
      processTextGo ranges singles ty level rest wordIndex wordArrayIndex
    else
      mkTokenAt ranges singles ty level word (wordIndex + 1) wordArrayIndex ::
        processTextGo ranges singles ty level rest (wordIndex + 1) (wordArrayIndex + 1)

/-- `processText` (source lines 86-168) on one text block, starting
from id counter `wordIndex`: split into words, compute the multi-word
phrase ranges, then annotate every word. -/
def processText (blurredWords : List String) (text : String) (ty : WordType)
    (level : Option Nat) (wordIndex : Nat) : List ArticleWord :=
  let words := wsRuns text
  processTextGo (multiPhraseRanges blurredWords words) (singleWordBlurs blurredWords)
    ty level words wordIndex 0

/-- The reveal ledger
`Map<walletAddress, Map<articleId, Set<wordText>>>` (source line 255),
as a total function with `[]` for every absent entry. -/
def Ledger : Type := String → String → List String

/-- The ledger before any reveal. -/
def emptyLedger : Ledger := fun _ _ => []

/-- `Set.prototype.add`: append the element when absent. -/
def insertS (s : List String) (x : String) : List String :=
  if x ∈ s then s else s ++ [x]

/-- Add every word of `ws` to the set at key `(u, a)` of the ledger. -/
def ledgerAdd (L : Ledger) (u a : String) (ws : List String) : Ledger :=
  fun u2 a2 => if u2 = u ∧ a2 = a then ws.foldl insertS (L u a) else L u2 a2

/-- The whole mutable server state: the loaded articles and the reveal
ledger. -/
structure ServerState where
  articles : List Article
  revealedWords : Ledger

/-- The result record of `handleWordReveal` (source lines 363-434). -/
structure RevealResult where
  success : Bool
  wordId : Option String := none
  text : Option String := none
  message : Option String := none
  error : Option String := none
  status : Nat
deriving DecidableEq, Repr

/-- A failure result `{ success: false, error, status }`. -/
def revealFailure (e : String) (s : Nat) : RevealResult :=
  { success := false, error := some e, status := s }

/-- `totalInstances` (source lines 418-423): the number of article
tokens that are blurred and share the clicked token's mask-normalized
text. -/
def totalInstances (article : Article) (word : ArticleWord) : Nat :=
  (article.content.filter (fun w =>
    normalizeMask w.text == normalizeMask word.text && w.isBlurred)).length

/-- `displayText` (source lines 411-416): when the token carries a
`phraseId`, the texts of every token with that `phraseId` joined with
single spaces; otherwise the token's own text. -/
def displayTextOf (article : Article) (word : ArticleWord) : String :=
  match word.phraseId with
  | some _ =>
    String.intercalate " "
      ((article.content.filter (fun w => w.phraseId == word.phraseId)).map ArticleWord.text)
  | none => word.text

/-- The normalized texts added to the ledger by a successful reveal
(source lines 395-408): all phrase members when the token has a
`phraseId`, otherwise the token's own normalized text. -/
def revealAdditions (article : Article) (word : ArticleWord) : List String :=
  match word.phraseId with
  | some _ =>
    (article.content.filter (fun w => w.phraseId == word.phraseId)).map
      (fun w => normalizeMask w.text)
  | none => [normalizeMask word.text]

/-- The success message of source lines 429-431. -/
def revealMessage (displayText : String) (instances : Nat) : String :=
  if instances > 1 then
    s!"Word revealed: \"{displayText}\" ({instances} instances unlocked)"
  else
    s!"Word revealed: \"{displayText}\""

/-- `handleWordReveal` (source lines 363-434): look up the article and
the token, reject missing (404) or non-blurred (400) tokens, otherwise
record the reveal in the ledger (when a wallet is present) and report
the display text and instance count. -/
def handleWordReveal (st : ServerState) (articleIndex : Nat) (wordId : String)
    (walletAddress : Option String) : RevealResult × ServerState :=
  match st.articles[articleIndex]? with
  | none => (revealFailure "Invalid article index" 404, st)
  | some article =>
    match article.content.find? (fun w => w.id == wordId) with
    | none => (revealFailure "Word not found" 404, st)
    | some word =>
      if !word.isBlurred then
        (revealFailure "This word is not blurred" 400, st)
      else
        let newLedger :=
          match walletAddress with
          | none => st.revealedWords
          | some wa =>
            ledgerAdd st.revealedWords (lowerStr wa) article.id (revealAdditions article word)
        let displayText := displayTextOf article word
        ({ success := true
           wordId := some wordId
           text := some displayText
           message := some (revealMessage displayText (totalInstances article word))
           status := 200 },
         { st with revealedWords := newLedger })

/-- The placeholder substituted for blurred, unrevealed words
(source line 334). -/
def blurPlaceholder : String := "█████"

/-- One view token of the masked article response. -/
structure ViewWord where
  id : String
  text : String
  isBlurred : Bool
  isRevealed : Bool
  type : WordType
  level : Option Nat
  phraseId : Option String
deriving DecidableEq, Repr

/-- The per-word projection inside `maskedContent` (source lines
326-351): substitute the placeholder for a blurred word whose
mask-normalized text is not in the user's revealed set, pass the word
through otherwise. -/
def maskWord (userArticleRevealed : List String) (word : ArticleWord) : ViewWord :=
  let wordTextNormalized := normalizeMask word.text
  let isWordRevealed := userArticleRevealed.contains wordTextNormalized
  if word.isBlurred && !isWordRevealed then
    { id := word.id
      text := blurPlaceholder
      isBlurred := true
      isRevealed := false
      type := word.type
      level := word.level
      phraseId := word.phraseId }
  else
    { id := word.id
      text := word.text
      isBlurred := word.isBlurred
      isRevealed := if word.isBlurred then isWordRevealed else false
      type := word.type
      level := word.level
      phraseId := word.phraseId }

/-- `maskedContent` (source lines 326-351): project every article token
to a view token. -/
def maskedContent (article : Article) (userArticleRevealed : List String) : List ViewWord :=
  article.content.map (maskWord userArticleRevealed)

/-- The revealed-word set the article route reads for a request
(source lines 321-323): the ledger entry at the lowercased wallet and
the article id, empty for anonymous requests. -/
def userRevealedFor (st : ServerState) (article : Article) (walletAddress : Option String) :
    List String :=
  match walletAddress with
  | none => []
  | some wa => st.revealedWords (lowerStr wa) article.id

/-- `GET /api/article/:index` (source lines 310-360), restricted to its
content projection: `none` for an out-of-range index, otherwise the
masked view for the requesting user. -/
def renderMasked (st : ServerState) (articleIndex : Nat) (walletAddress : Option String) :
    Option (List ViewWord) :=
  match st.articles[articleIndex]? with
  | none => none
  | some article => some (maskedContent article (userRevealedFor st article walletAddress))

/-- Modelled from the spec: the count the spec says `revealWord`
reports — "how many token instances across the article now satisfy
`isBlurred && normalized-text ∈ ledger`" — against the revealed set
`rev` after the call.  Defined for comparison with the source's
`totalInstances`. -/
def specInstanceCount (article : Article) (rev : List String) : Nat :=
  (article.content.filter (fun w =>
    w.isBlurred && rev.contains (normalizeMask w.text))).length

/-- The spec's single-word example article: content
`"Adam started a company. Adam worked hard."` with blur target
`["Adam"]`.  `marked.lexer` yields a single paragraph token for this
content, so `parseArticle` reduces to one `processText` call. -/
def adamArticle : Article :=
  { id := "adam-article"
    title := "Adam"
    content := processText ["Adam"] "Adam started a company. Adam worked hard."
      WordType.text none 0
    pricePerWord := "$0.01" }

/-- Server state holding only `adamArticle`, before any reveal. -/
def adamState : ServerState :=
  { articles := [adamArticle], revealedWords := emptyLedger }

/-- The spec's multi-word example article: blur target
`["augmented reality"]` occurring once in the content. -/
def arArticle : Article :=
  { id := "ar-article"
    title := "AR"
    content := processText ["augmented reality"] "augmented reality in ways"
      WordType.text none 0
    pricePerWord := "$0.01" }

/-- Server state holding only `arArticle`, before any reveal. -/
def arState : ServerState :=
  { articles := [arArticle], revealedWords := emptyLedger }

/-! ### Basic lemmas about the ledger and the set model -/

/-- Membership in `insertS`. -/
theorem mem_insertS {s : List String} {x y : String} :
    y ∈ insertS s x ↔ y ∈ s ∨ y = x := by
  unfold insertS
  by_cases h : x ∈ s
  · simp only [if_pos h]
    constructor
    · exact Or.inl
    · rintro (hy | rfl)
      · exact hy
      · exact h
  · simp [if_neg h]

/-- Membership after folding `insertS` over a word list. -/
theorem mem_foldl_insertS {ws : List String} {s : List String} {x : String} :
    x ∈ ws.foldl insertS s ↔ x ∈ s ∨ x ∈ ws := by
  induction ws generalizing s with
  | nil => simp
  | cons w ws ih =>
    simp only [List.foldl_cons, ih, mem_insertS, List.mem_cons]
    tauto

/-- `ledgerAdd` at the written key. -/
theorem ledgerAdd_same (L : Ledger) (u a : String) (ws : List String) :
    ledgerAdd L u a ws u a = ws.foldl insertS (L u a) := by
  unfold ledgerAdd
  simp

/-- `ledgerAdd` leaves every other key unchanged. -/
theorem ledgerAdd_other (L : Ledger) (u a : String) (ws : List String) (u2 a2 : String)
    (h : ¬(u2 = u ∧ a2 = a)) : ledgerAdd L u a ws u2 a2 = L u2 a2 := by
  unfold ledgerAdd
  simp [if_neg h]

/-- `List.contains` agrees with membership for strings. -/
theorem contains_iff_mem (l : List String) (x : String) :
    l.contains x = true ↔ x ∈ l :=
  List.elem_iff

/-! ### Branch equations for `handleWordReveal` -/

/-- The successful branch of `handleWordReveal`, as one equation. -/
theorem handleWordReveal_success_eq (st : ServerState) (ai : Nat) (wid : String)
    (wa : Option String) (artX : Article) (w : ArticleWord)
    (hA : st.articles[ai]? = some artX)
    (hF : artX.content.find? (fun v => v.id == wid) = some w)
    (hB : w.isBlurred = true) :
    handleWordReveal st ai wid wa =
      ({ success := true
         wordId := some wid
         text := some (displayTextOf artX w)
         message := some (revealMessage (displayTextOf artX w) (totalInstances artX w))
         status := 200 },
       { st with revealedWords :=
          match wa with
          | none => st.revealedWords
          | some a => ledgerAdd st.revealedWords (lowerStr a) artX.id (revealAdditions artX w) }) := by
  unfold handleWordReveal
  rw [hA]
  simp only [hF, hB]
  rfl

/-- The word-not-found branch of `handleWordReveal`. -/
theorem handleWordReveal_notFound_eq (st : ServerState) (ai : Nat) (wid : String)
    (wa : Option String) (artX : Article)
    (hA : st.articles[ai]? = some artX)
    (hF : ∀ v ∈ artX.content, v.id ≠ wid) :
    handleWordReveal st ai wid wa = (revealFailure "Word not found" 404, st) := by
  have hN : artX.content.find? (fun v => v.id == wid) = none := by
    rw [List.find?_eq_none]
    intro v hv
    simpa using hF v hv
  unfold handleWordReveal
  rw [hA]
  simp [hN]

/-- The not-blurred branch of `handleWordReveal`. -/
theorem handleWordReveal_notBlurred_eq (st : ServerState) (ai : Nat) (wid : String)
    (wa : Option String) (artX : Article) (w : ArticleWord)
    (hA : st.articles[ai]? = some artX)
    (hF : artX.content.find? (fun v => v.id == wid) = some w)
    (hB : w.isBlurred = false) :
    handleWordReveal st ai wid wa = (revealFailure "This word is not blurred" 400, st) := by
  unfold handleWordReveal
  rw [hA]
  simp [hF, hB]


theorem maskedContent_getElem? (article : Article) (rev : List String) (k : Nat) :
    (maskedContent article rev)[k]? = (article.content[k]?).map (maskWord rev) := by
  unfold maskedContent
  exact List.getElem?_map (maskWord rev) article.content k

theorem maskWord_revealed (rev : List String) (w : ArticleWord)
    (hb : w.isBlurred = true) (hr : rev.contains (normalizeMask w.text) = true) :
    maskWord rev w =
      { id := w.id, text := w.text, isBlurred := true, isRevealed := true,
        type := w.type, level := w.level, phraseId := w.phraseId } := by
  have hr2 : normalizeMask w.text ∈ rev := (contains_iff_mem rev (normalizeMask w.text)).mp hr
  unfold maskWord
  rw [hb]
  simp [hr2]

theorem maskWord_hidden (rev : List String) (w : ArticleWord)
    (hb : w.isBlurred = true) (hr : rev.contains (normalizeMask w.text) = false) :
    maskWord rev w =
      { id := w.id, text := blurPlaceholder, isBlurred := true, isRevealed := false,
        type := w.type, level := w.level, phraseId := w.phraseId } := by
  have hr2 : normalizeMask w.text ∉ rev := by
    intro hmem
    rw [(contains_iff_mem rev (normalizeMask w.text)).mpr hmem] at hr
    exact absurd hr (by simp)
  unfold maskWord
  rw [hb]
  simp [hr2]

theorem maskWord_notBlurred (rev : List String) (w : ArticleWord)
    (hb : w.isBlurred = false) :
    maskWord rev w =
      { id := w.id, text := w.text, isBlurred := false, isRevealed := false,
        type := w.type, level := w.level, phraseId := w.phraseId } := by
  unfold maskWord
  rw [hb]
  rfl

theorem maskWord_fields (rev : List String) (w : ArticleWord) :
    (maskWord rev w).id = w.id ∧ (maskWord rev w).isBlurred = w.isBlurred ∧
    (maskWord rev w).type = w.type ∧ (maskWord rev w).level = w.level ∧
    (maskWord rev w).phraseId = w.phraseId := by
  cases hb : w.isBlurred with
  | false => rw [maskWord_notBlurred rev w hb]; simp
  | true =>
    cases hr : rev.contains (normalizeMask w.text) with
    | false => rw [maskWord_hidden rev w hb hr]; simp [hb]
    | true => rw [maskWord_revealed rev w hb hr]; simp [hb]

theorem handleWordReveal_noneFound_eq (st : ServerState) (ai : Nat) (wid : String)
    (wa : Option String) (artX : Article)
    (hA : st.articles[ai]? = some artX)
    (hN : artX.content.find? (fun v => v.id == wid) = none) :
    handleWordReveal st ai wid wa = (revealFailure "Word not found" 404, st) := by
  unfold handleWordReveal
  rw [hA]
  simp [hN]

theorem handleWordReveal_failure_frame (st : ServerState) (ai : Nat) (wid : String)
    (wa : Option String) (h : (handleWordReveal st ai wid wa).1.success = false) :
    (handleWordReveal st ai wid wa).2 = st ∧
    (handleWordReveal st ai wid wa).1.error.isSome = true ∧
    ((handleWordReveal st ai wid wa).1.status = 404 ∨
      (handleWordReveal st ai wid wa).1.status = 400) := by
  cases hA : st.articles[ai]? with
  | none =>
    unfold handleWordReveal
    rw [hA]
    simp [revealFailure]
  | some artX =>
    cases hF : artX.content.find? (fun v => v.id == wid) with
    | none =>
      rw [handleWordReveal_noneFound_eq st ai wid wa artX hA hF]
      simp [revealFailure]
    | some w =>
      cases hB : w.isBlurred with
      | false =>
        rw [handleWordReveal_notBlurred_eq st ai wid wa artX w hA hF hB]
        simp [revealFailure]
      | true =>
        rw [handleWordReveal_success_eq st ai wid wa artX w hA hF hB] at h
        simp at h

/-! ### Lemmas about the tokenizer -/

/-- Every token emitted by the annotation pass takes its blur flag and
phrase id from one optional matched blur phrase, which comes either
from the phrase ranges or from the single-word targets. -/
theorem processTextGo_mem_spec (ranges : List PhraseRange) (singles : List String)
    (ty : WordType) (lv : Option Nat) :
    ∀ (words : List String) (wi wai : Nat) (w : ArticleWord),
      w ∈ processTextGo ranges singles ty lv words wi wai →
      ∃ obp : Option String, w.isBlurred = obp.isSome ∧ w.phraseId = obp.map mkPhraseId ∧
        ∀ bp, obp = some bp → (∃ r ∈ ranges, r.phrase = bp) ∨ bp ∈ singles := by
  intro words
  induction words with
  | nil => intro wi wai w h; simp [processTextGo] at h
  | cons word rest ih =>
    intro wi wai w h
    rw [processTextGo] at h
    by_cases hskip : trimWs word = ""
    · rw [if_pos hskip] at h
      exact ih wi wai w h
    · rw [if_neg hskip] at h
      rcases List.mem_cons.mp h with hw | hw
      · subst hw
        unfold mkTokenAt
        cases hfr : (ranges.find? (fun r =>
            decide (r.startWordIndex ≤ wai) && decide (wai ≤ r.endWordIndex))) with
        | some r =>
          refine ⟨some r.phrase, by simp [hfr], by simp [hfr], ?_⟩
          intro bp hbp
          exact Or.inl ⟨r, List.mem_of_find?_eq_some hfr, by
            have : bp = r.phrase := by simpa using hbp.symm
            exact this.symm⟩
        | none =>
          cases hsg : singles.find? (fun sb => normalizeParse sb == normalizeParse word) with
          | some sb =>
            refine ⟨some sb, by simp [hfr, hsg], by simp [hfr, hsg], ?_⟩
            intro bp hbp
            obtain rfl : sb = bp := by simpa using hbp
            exact Or.inr (List.mem_of_find?_eq_some hsg)
          | none =>
            exact ⟨none, by simp [hfr, hsg], by simp [hfr, hsg], by intro bp h2; cases h2⟩
      · exact ih (wi + 1) (wai + 1) w hw

/-- The phrase recorded by any range of `multiPhraseRanges` is one of
the multi-word blur targets. -/
theorem multiPhraseRanges_phrase_mem (bws words : List String) (r : PhraseRange)
    (h : r ∈ multiPhraseRanges bws words) : r.phrase ∈ multiWordBlurs bws := by
  unfold multiPhraseRanges at h
  rcases List.mem_flatMap.mp h with ⟨bp, hbp, hr⟩
  unfold findRanges at hr
  rcases List.mem_filterMap.mp hr with ⟨i, _, hi⟩
  by_cases hm : ((normalizedWords words).drop i).take (phraseWords (normalizeParse bp)).length
      = phraseWords (normalizeParse bp)
  · rw [if_pos hm] at hi
    cases hi
    simpa using hbp
  · rw [if_neg hm] at hi
    cases hi

/-- Single-word blur targets are configured blur targets. -/
theorem singleWordBlurs_subset (bws : List String) (bp : String)
    (h : bp ∈ singleWordBlurs bws) : bp ∈ bws :=
  (List.mem_filter.mp h).1

/-- Multi-word blur targets are configured blur targets. -/
theorem multiWordBlurs_subset (bws : List String) (bp : String)
    (h : bp ∈ multiWordBlurs bws) : bp ∈ bws :=
  (List.mem_filter.mp h).1

/-- Pieces produced by `splitRunsAux` are nonempty and contain no
whitespace, given a whitespace-free accumulator. -/
theorem splitRunsAux_mem_spec :
    ∀ (l : List Char) (acc : List Char),
      (∀ c ∈ acc, c.isWhitespace = false) →
      ∀ p ∈ splitRunsAux l acc, p ≠ "" ∧ ∀ c ∈ p.toList, c.isWhitespace = false := by
  intro l
  induction l with
  | nil =>
    intro acc hacc p hp
    unfold splitRunsAux at hp
    by_cases h0 : acc = []
    · simp [h0] at hp
    · rw [if_neg h0] at hp
      rcases List.mem_singleton.mp hp with rfl
      constructor
      · intro hcontra
        have : acc.reverse = [] := by
          simpa using congrArg String.toList hcontra
        exact h0 (by simpa using this)
      · intro c hc
        exact hacc c (List.mem_reverse.mp (by simpa using hc))
  | cons a rest ih =>
    intro acc hacc p hp
    unfold splitRunsAux at hp
    by_cases hws : a.isWhitespace
    · rw [if_pos hws] at hp
      by_cases h0 : acc = []
      · rw [if_pos h0] at hp
        exact ih [] (by simp) p hp
      · rw [if_neg h0] at hp
        rcases List.mem_cons.mp hp with rfl | hp2
        · constructor
          · intro hcontra
            have : acc.reverse = [] := by
              simpa using congrArg String.toList hcontra
            exact h0 (by simpa using this)
          · intro c hc
            exact hacc c (List.mem_reverse.mp (by simpa using hc))
        · exact ih [] (by simp) p hp2
    · rw [if_neg hws] at hp
      refine ih (a :: acc) ?_ p hp
      intro c hc
      rcases List.mem_cons.mp hc with rfl | hc2
      · exact Bool.eq_false_iff.mpr hws
      · exact hacc c hc2

/-- Every run of `wsRuns` is nonempty and whitespace-free. -/
theorem wsRuns_mem_spec (s : String) (p : String) (hp : p ∈ wsRuns s) :
    p ≠ "" ∧ ∀ c ∈ p.toList, c.isWhitespace = false :=
  splitRunsAux_mem_spec s.toList [] (by simp) p hp

/-- `dropWhile` is the identity on a list none of whose elements
satisfy the predicate. -/
theorem dropWhile_eq_self_of_none {p : Char → Bool} :
    ∀ {l : List Char}, (∀ c ∈ l, p c = false) → l.dropWhile p = l := by
  intro l h
  cases l with
  | nil => rfl
  | cons a rest =>
    rw [List.dropWhile_cons_of_neg]
    simp [h a (List.mem_cons_self a rest)]

/-- `trimWs` is the identity on whitespace-free strings. -/
theorem trimWs_eq_self (s : String) (h : ∀ c ∈ s.toList, c.isWhitespace = false) :
    trimWs s = s := by
  unfold trimWs
  rw [dropWhile_eq_self_of_none h]
  rw [dropWhile_eq_self_of_none (by intro c hc; exact h c (List.mem_reverse.mp hc))]
  simp

/-- Runs of `wsRuns` survive the annotation pass's skip test. -/
theorem wsRuns_trim_ne (s : String) (p : String) (hp : p ∈ wsRuns s) :
    trimWs p ≠ "" := by
  obtain ⟨hne, hnw⟩ := wsRuns_mem_spec s p hp
  rw [trimWs_eq_self p hnw]
  exact hne

/-- Closed form of the annotation pass when no word is skipped: the
`k`-th token annotates the `k`-th word with both counters advanced by
`k`. -/
theorem processTextGo_getElem? (ranges : List PhraseRange) (singles : List String)
    (ty : WordType) (lv : Option Nat) :
    ∀ (words : List String) (wi wai k : Nat),
      (∀ w ∈ words, trimWs w ≠ "") →
      (processTextGo ranges singles ty lv words wi wai)[k]? =
        (words[k]?).map (fun word => mkTokenAt ranges singles ty lv word (wi + k + 1) (wai + k)) := by
  intro words
  induction words with
  | nil => intro wi wai k h; simp [processTextGo]
  | cons word rest ih =>
    intro wi wai k h
    rw [processTextGo, if_neg (h word (List.mem_cons_self word rest))]
    cases k with
    | zero => simp
    | succ k =>
      rw [List.getElem?_cons_succ, List.getElem?_cons_succ]
      rw [ih (wi + 1) (wai + 1) k (fun w hw => h w (List.mem_cons_of_mem word hw))]
      have e1 : wi + 1 + k + 1 = wi + (k + 1) + 1 := by omega
      have e2 : wai + 1 + k = wai + (k + 1) := by omega
      rw [e1, e2]

/-- Length of the annotation pass output when no word is skipped. -/
theorem processTextGo_length (ranges : List PhraseRange) (singles : List String)
    (ty : WordType) (lv : Option Nat) :
    ∀ (words : List String) (wi wai : Nat),
      (∀ w ∈ words, trimWs w ≠ "") →
      (processTextGo ranges singles ty lv words wi wai).length = words.length := by
  intro words
  induction words with
  | nil => intro wi wai h; simp [processTextGo]
  | cons word rest ih =>
    intro wi wai h
    rw [processTextGo, if_neg (h word (List.mem_cons_self word rest))]
    simp [ih (wi + 1) (wai + 1) (fun w hw => h w (List.mem_cons_of_mem word hw))]

/-- The normalized-word array keeps every word when all normalizations
are nonempty. -/
theorem normalizedWords_eq_map (words : List String)
    (h : ∀ w ∈ words, normalizeParse w ≠ "") :
    normalizedWords words = words.map normalizeParse := by
  unfold normalizedWords
  rw [List.filter_eq_self]
  intro a ha
  rcases List.mem_map.mp ha with ⟨w, hw, rfl⟩
  exact bne_iff_ne.mpr (h w hw)

/-- `phraseWords` of a parse-normalized string is never empty: the
empty string splits to `[""]`, and a nonempty trimmed string contains a
non-whitespace character, so it has at least one run. -/
theorem phraseWords_normalizeParse_ne_nil (s : String) :
    phraseWords (normalizeParse s) ≠ [] := by
  unfold phraseWords
  by_cases h0 : normalizeParse s = ""
  · rw [if_pos h0]
    simp
  · rw [if_neg h0]
    -- the trimmed string has a non-whitespace character
    unfold normalizeParse trimWs at h0 ⊢
    set l := ((String.mk ((s.toList.map lowerChar).filter (fun c => !parsePunct c))).toList.dropWhile
      Char.isWhitespace).reverse.dropWhile Char.isWhitespace with hl
    have hlne : l ≠ [] := by
      intro hcontra
      apply h0
      rw [hcontra]
      rfl
    have hhead : Char.isWhitespace (l.head hlne) = false :=
      List.head_dropWhile_not Char.isWhitespace _ hlne
    have hmem : l.head hlne ∈ (String.mk l.reverse).toList := by
      simp only [String.toList]
      exact List.mem_reverse.mpr (List.head_mem hlne)
    -- a string with a non-whitespace character has a nonempty run list
    have main : ∀ (cl : List Char) (acc : List Char), (∃ c ∈ cl, c.isWhitespace = false) ∨ acc ≠ [] →
        splitRunsAux cl acc ≠ [] := by
      intro cl
      induction cl with
      | nil =>
        intro acc hacc
        rcases hacc with ⟨c, hc, _⟩ | hacc
        · cases hc
        · unfold splitRunsAux
          rw [if_neg hacc]
          simp
      | cons a rest ih =>
        intro acc hacc
        unfold splitRunsAux
        by_cases hws : a.isWhitespace
        · rw [if_pos hws]
          by_cases h0a : acc = []
          · rw [if_pos h0a]
            apply ih
            rcases hacc with ⟨c, hc, hcw⟩ | hacc
            · rcases List.mem_cons.mp hc with rfl | hc2
              · rw [hws] at hcw; cases hcw
              · exact Or.inl ⟨c, hc2, hcw⟩
            · exact absurd h0a hacc
          · rw [if_neg h0a]
            simp
        · rw [if_neg hws]
          apply ih
          exact Or.inr (by simp)
    exact main (String.mk l.reverse).toList [] (Or.inl ⟨l.head hlne, hmem, hhead⟩)

/-- The range-membership test the annotation pass applies at word-array
index `k` (source lines 140-145). -/
def multiSpanHit (ranges : List PhraseRange) (k : Nat) : Bool :=
  (ranges.find? (fun r =>
    decide (r.startWordIndex ≤ k) && decide (k ≤ r.endWordIndex))).isSome

/-- `multiSpanHit` holds exactly when some range covers the index. -/
theorem multiSpanHit_iff (ranges : List PhraseRange) (k : Nat) :
    multiSpanHit ranges k = true ↔
      ∃ r ∈ ranges, r.startWordIndex ≤ k ∧ k ≤ r.endWordIndex := by
  unfold multiSpanHit
  rw [List.find?_isSome]
  constructor
  · rintro ⟨r, hr, hp⟩
    refine ⟨r, hr, ?_⟩
    simpa using hp
  · rintro ⟨r, hr, h1, h2⟩
    exact ⟨r, hr, by simpa using And.intro h1 h2⟩

/-- Membership characterization of `findRanges`. -/
theorem mem_findRanges_iff (nw pws : List String) (phrase : String) (r : PhraseRange) :
    r ∈ findRanges nw pws phrase ↔
      ∃ i, i < nw.length + 1 - pws.length ∧ (nw.drop i).take pws.length = pws ∧
        r = { startWordIndex := i, endWordIndex := i + pws.length - 1, phrase := phrase } := by
  unfold findRanges
  rw [List.mem_filterMap]
  constructor
  · rintro ⟨i, hi, hif⟩
    by_cases hm : (nw.drop i).take pws.length = pws
    · rw [if_pos hm] at hif
      cases hif
      exact ⟨i, List.mem_range.mp hi, hm, rfl⟩
    · rw [if_neg hm] at hif
      cases hif
  · rintro ⟨i, hib, hm, rfl⟩
    exact ⟨i, List.mem_range.mpr hib, by rw [if_pos hm]⟩

/-- A successful window match bounds the window inside the list. -/
theorem take_drop_match_bound {nw pws : List String} {i : Nat}
    (hlen : 0 < pws.length) (h : (nw.drop i).take pws.length = pws) :
    i + pws.length ≤ nw.length := by
  have hlen2 := congrArg List.length h
  rw [List.length_take, List.length_drop] at hlen2
  have hle : pws.length ≤ nw.length - i := by
    rw [← hlen2]
    exact Nat.min_le_right _ _
  omega

/-- A token built at an index covered by some range is blurred. -/
theorem mkTokenAt_isBlurred_of_hit (ranges : List PhraseRange) (singles : List String)
    (ty : WordType) (lv : Option Nat) (word : String) (idNum k : Nat)
    (h : multiSpanHit ranges k = true) :
    (mkTokenAt ranges singles ty lv word idNum k).isBlurred = true := by
  unfold multiSpanHit at h
  unfold mkTokenAt
  cases hfr : (ranges.find? (fun r =>
      decide (r.startWordIndex ≤ k) && decide (k ≤ r.endWordIndex))) with
  | none => rw [hfr] at h; cases h
  | some r => simp [hfr]

/-- The normalized texts of the tokens of a fully-normalizable block
are the normalized words of the block, position by position. -/
theorem processText_norm_map (bws : List String) (text : String) (ty : WordType)
    (lv : Option Nat) (n : Nat) :
    (processText bws text ty lv n).map (fun u => normalizeParse u.text) =
      (wsRuns text).map normalizeParse := by
  apply List.ext_getElem?
  intro m
  rw [List.getElem?_map, List.getElem?_map]
  unfold processText
  rw [processTextGo_getElem? _ _ _ _ (wsRuns text) n 0 m
    (fun w hw => wsRuns_trim_ne text w hw)]
  cases hw : (wsRuns text)[m]? with
  | none => rfl
  | some word => simp [mkTokenAt]

theorem processText_length (bws : List String) (text : String) (ty : WordType)
    (lv : Option Nat) (n : Nat) :
    (processText bws text ty lv n).length = (wsRuns text).length := by
  unfold processText
  exact processTextGo_length _ _ _ _ (wsRuns text) n 0 (fun w hw => wsRuns_trim_ne text w hw)

/-- Alignment of the phrase matcher with the annotation pass when every
run of the block has a nonempty normalization: the index-`k` token is
inside some recorded multi-word span exactly when a window of the
token sequence whose normalized texts equal the target's normalized
words covers position `k`. -/
theorem phrase_alignment (bws : List String) (text : String) (ty : WordType)
    (lv : Option Nat) (n : Nat)
    (H : ∀ w ∈ wsRuns text, normalizeParse w ≠ "") (k : Nat) (t : ArticleWord)
    (ht : (processText bws text ty lv n)[k]? = some t) :
    (multiSpanHit (multiPhraseRanges bws (wsRuns text)) k = true ↔
      ∃ bp ∈ multiWordBlurs bws, ∃ i, i ≤ k ∧
        k < i + (phraseWords (normalizeParse bp)).length ∧
        (((processText bws text ty lv n).map (fun u => normalizeParse u.text)).drop i).take
            (phraseWords (normalizeParse bp)).length = phraseWords (normalizeParse bp)) ∧
    (multiSpanHit (multiPhraseRanges bws (wsRuns text)) k = true → t.isBlurred = true) := by
  have hskip : ∀ w ∈ wsRuns text, trimWs w ≠ "" := fun w hw => wsRuns_trim_ne text w hw
  have hnw : normalizedWords (wsRuns text) = (wsRuns text).map normalizeParse :=
    normalizedWords_eq_map (wsRuns text) H
  have htm := processText_norm_map bws text ty lv n
  constructor
  · -- the iff
    rw [multiSpanHit_iff]
    constructor
    · rintro ⟨r, hr, hcov1, hcov2⟩
      rcases List.mem_flatMap.mp hr with ⟨bp, hbp, hfind⟩
      rcases (mem_findRanges_iff _ _ _ _).mp hfind with ⟨i, _, hmatch, rfl⟩
      have hlen : 0 < (phraseWords (normalizeParse bp)).length :=
        List.length_pos.mpr (phraseWords_normalizeParse_ne_nil bp)
      refine ⟨bp, hbp, i, hcov1, ?_, ?_⟩
      · simp only at hcov2
        omega
      · rw [htm, ← hnw]
        exact hmatch
    · rintro ⟨bp, hbp, i, hik, hki, hmatch⟩
      rw [htm, ← hnw] at hmatch
      have hlen : 0 < (phraseWords (normalizeParse bp)).length :=
        List.length_pos.mpr (phraseWords_normalizeParse_ne_nil bp)
      have hbound := take_drop_match_bound hlen hmatch
      refine ⟨{ startWordIndex := i,
                endWordIndex := i + (phraseWords (normalizeParse bp)).length - 1,
                phrase := bp }, ?_, ?_, ?_⟩
      · apply List.mem_flatMap.mpr
        refine ⟨bp, hbp, ?_⟩
        apply (mem_findRanges_iff _ _ _ _).mpr
        exact ⟨i, by omega, hmatch, rfl⟩
      · exact hik
      · simp only
        omega
  · -- span hit forces a blurred token
    intro hhit
    unfold processText at ht
    rw [processTextGo_getElem? _ _ _ _ (wsRuns text) n 0 k hskip] at ht
    cases hw : (wsRuns text)[k]? with
    | none => rw [hw] at ht; cases ht
    | some word =>
      rw [hw] at ht
      have : t = mkTokenAt (multiPhraseRanges bws (wsRuns text)) (singleWordBlurs bws)
          ty lv word (n + k + 1) (0 + k) := by
        simpa using ht.symm
      rw [this]
      have h0k : 0 + k = k := Nat.zero_add k
      rw [h0k]
      exact mkTokenAt_isBlurred_of_hit _ _ _ _ _ _ _ hhit

/-! ### Claim theorems -/

/-- **C9**: every token produced by `processText` is blurred exactly
when it carries a `phraseId` — single-word matches included — and a
blurred token's `phraseId` is `phrase-` plus the matched configured
blur target with whitespace runs replaced by hyphens and lowercased,
shared across all tokens matched by that target; consequently a
successful `revealWord` on a parser-produced blurred token always finds
a `phraseId` and takes the phrase-group branch. -/
theorem C9_blurred_iff_phraseId (bws : List String) (text : String) (ty : WordType)
    (lv : Option Nat) (n : Nat) (w : ArticleWord)
    (hw : w ∈ processText bws text ty lv n) :
    (w.isBlurred = true ↔ w.phraseId.isSome = true) ∧
    (w.isBlurred = true → ∃ bp ∈ bws, w.phraseId = some (mkPhraseId bp)) := by
  unfold processText at hw
  obtain ⟨obp, hb, hp, hsrc⟩ := processTextGo_mem_spec _ _ _ _ _ _ _ w hw
  constructor
  · rw [hb, hp]
    cases obp <;> simp
  · intro hblur
    rw [hb] at hblur
    cases obp with
    | none => cases hblur
    | some bp =>
      rcases hsrc bp rfl with ⟨r, hr, hrbp⟩ | hbp
      · subst hrbp
        exact ⟨r.phrase,
          multiWordBlurs_subset bws r.phrase (multiPhraseRanges_phrase_mem bws _ r hr),
          by simp [hp]⟩
      · exact ⟨bp, singleWordBlurs_subset bws bp hbp, by simp [hp]⟩

/-- Witness for C9 at the first "Adam" token of the example article. -/
theorem C9_blurred_iff_phraseId_witness :
    ((⟨"w1", "Adam", true, some "phrase-adam", WordType.text, none⟩ : ArticleWord) ∈
      processText ["Adam"] "Adam started a company. Adam worked hard." WordType.text none 0) ∧
    ((true : Bool) = true ↔ (some "phrase-adam" : Option String).isSome = true) := by
  have h := C9_blurred_iff_phraseId ["Adam"] "Adam started a company. Adam worked hard."
    WordType.text none 0 ⟨"w1", "Adam", true, some "phrase-adam", WordType.text, none⟩
    (by decide)
  exact ⟨by decide, by simp⟩

/-- **C10**: within one text block whose non-whitespace runs all have
nonempty normalizations, a token lies in a recorded multi-word blur
span exactly when some window of consecutive tokens whose normalized
texts equal a multi-word target's normalized words covers its position
(and such a token is marked blurred); when a run normalizes to empty,
the matcher's indices (over nonempty normalizations) and the annotation
pass's running index (over all runs) diverge: in
`"hello ... world foo"` with target `"world foo"` the matching run is
at token positions 2-3 but the tokens marked blurred are positions
1-2. -/
theorem C10_span_alignment :
    (∀ (bws : List String) (text : String) (ty : WordType) (lv : Option Nat) (n : Nat),
      (∀ w ∈ wsRuns text, normalizeParse w ≠ "") →
      ∀ (k : Nat) (t : ArticleWord), (processText bws text ty lv n)[k]? = some t →
      (multiSpanHit (multiPhraseRanges bws (wsRuns text)) k = true ↔
        ∃ bp ∈ multiWordBlurs bws, ∃ i, i ≤ k ∧
          k < i + (phraseWords (normalizeParse bp)).length ∧
          (((processText bws text ty lv n).map (fun u => normalizeParse u.text)).drop i).take
              (phraseWords (normalizeParse bp)).length = phraseWords (normalizeParse bp)) ∧
      (multiSpanHit (multiPhraseRanges bws (wsRuns text)) k = true → t.isBlurred = true)) ∧
    ((processText ["world foo"] "hello ... world foo" WordType.text none 0).map
        ArticleWord.isBlurred = [false, true, true, false] ∧
      (processText ["world foo"] "hello ... world foo" WordType.text none 0).map
        (fun u => normalizeParse u.text) = ["hello", "", "world", "foo"] ∧
      normalizeParse "..." = "") := by
  constructor
  · intro bws text ty lv n H k t ht
    exact phrase_alignment bws text ty lv n H k t ht
  · exact ⟨by decide, by decide, by decide⟩

/-- Witness for C10 at the first token of the multi-word example. -/
theorem C10_span_alignment_witness :
    multiSpanHit
      (multiPhraseRanges ["augmented reality"] (wsRuns "augmented reality in ways")) 0 = true := by
  have h := (C10_span_alignment.1 ["augmented reality"] "augmented reality in ways"
    WordType.text none 0 (by decide) 0
    ⟨"w1", "augmented", true, some "phrase-augmented-reality", WordType.text, none⟩
    (by decide)).1
  exact h.mpr ⟨"augmented reality", by decide, 0, Nat.le_refl 0, by decide, by decide⟩

/-- **C8**: the masked view keeps every token's `phraseId` even while
substituting the placeholder for its text; two revealed sets produce
views that can differ only in the `text` and `isRevealed` fields; and
every blurred parser token's `phraseId` is `phrase-` plus the matched
blur target's literal text with whitespace runs hyphenated and
lowercased — so the masked response discloses the hidden target text of
every blurred token to any caller. -/
theorem C8_phraseId_disclosure :
    (∀ (article : Article) (rev : List String) (k : Nat) (w : ArticleWord),
      article.content[k]? = some w →
      ∃ v, (maskedContent article rev)[k]? = some v ∧ v.id = w.id ∧ v.phraseId = w.phraseId ∧
        (w.isBlurred = true → rev.contains (normalizeMask w.text) = false →
          v.text = blurPlaceholder ∧ v.isRevealed = false)) ∧
    (∀ (article : Article) (rev1 rev2 : List String) (k : Nat),
      ((maskedContent article rev1)[k]?).map
          (fun v => (v.id, v.isBlurred, v.type, v.level, v.phraseId)) =
        ((maskedContent article rev2)[k]?).map
          (fun v => (v.id, v.isBlurred, v.type, v.level, v.phraseId))) ∧
    (∀ (bws : List String) (text : String) (ty : WordType) (lv : Option Nat) (n : Nat)
        (w : ArticleWord), w ∈ processText bws text ty lv n → w.isBlurred = true →
      ∃ bp ∈ bws, w.phraseId = some ("phrase-" ++ lowerStr (replaceWsRuns bp))) := by
  refine ⟨?_, ?_, ?_⟩
  · intro article rev k w hk
    refine ⟨maskWord rev w, ?_, ?_, ?_, ?_⟩
    · rw [maskedContent_getElem?, hk]
      rfl
    · exact (maskWord_fields rev w).1
    · exact (maskWord_fields rev w).2.2.2.2
    · intro hb hr
      rw [maskWord_hidden rev w hb hr]
      exact ⟨rfl, rfl⟩
  · intro article rev1 rev2 k
    rw [maskedContent_getElem?, maskedContent_getElem?]
    cases hk : article.content[k]? with
    | none => rfl
    | some w =>
      obtain ⟨i1, b1, t1, l1, p1⟩ := maskWord_fields rev1 w
      obtain ⟨i2, b2, t2, l2, p2⟩ := maskWord_fields rev2 w
      simp only [Option.map_some']
      rw [i1, b1, t1, l1, p1, i2, b2, t2, l2, p2]
  · intro bws text ty lv n w hw hb
    unfold processText at hw
    obtain ⟨obp, hbl, hp, hsrc⟩ := processTextGo_mem_spec _ _ _ _ _ _ _ w hw
    rw [hbl] at hb
    cases obp with
    | none => cases hb
    | some bp =>
      rcases hsrc bp rfl with ⟨r, hr, hrbp⟩ | hbp
      · subst hrbp
        exact ⟨r.phrase,
          multiWordBlurs_subset bws r.phrase (multiPhraseRanges_phrase_mem bws _ r hr),
          by simp [hp, mkPhraseId]⟩
      · exact ⟨bp, singleWordBlurs_subset bws bp hbp, by simp [hp, mkPhraseId]⟩

/-- Witness for C8: the hidden first token of the Adam article still
carries its target-revealing phrase id. -/
theorem C8_phraseId_disclosure_witness :
    ((maskedContent adamArticle [])[0]?).map ViewWord.phraseId = some (some "phrase-adam") ∧
    ((maskedContent adamArticle [])[0]?).map ViewWord.text = some blurPlaceholder := by
  obtain ⟨v, hv, hid, hph, hmask⟩ := C8_phraseId_disclosure.1 adamArticle [] 0
    ⟨"w1", "Adam", true, some "phrase-adam", WordType.text, none⟩ (by decide)
  obtain ⟨htext, _⟩ := hmask (by decide) (by decide)
  rw [hv]
  constructor
  · simp only [Option.map_some']
    rw [hph]
  · simp only [Option.map_some']
    rw [htext]

/-- **C5**: for a valid article index, `renderMasked` returns one view
token per article token in the original order; a blurred token whose
normalized text is absent from the requesting user's revealed set
becomes the placeholder with `isRevealed = false`, every other token
passes its surface text through with
`isRevealed = isBlurred && present-in-ledger`, and non-blurred tokens
are never marked revealed. -/
theorem C5_renderMasked_shape (st : ServerState) (ai : Nat) (article : Article)
    (wa : Option String) (hA : st.articles[ai]? = some article) :
    ∃ view, renderMasked st ai wa = some view ∧
      view.length = article.content.length ∧
      (∀ (k : Nat) (w : ArticleWord), article.content[k]? = some w →
        view[k]? = some (
          if w.isBlurred = true ∧
              (userRevealedFor st article wa).contains (normalizeMask w.text) = false then
            { id := w.id, text := blurPlaceholder, isBlurred := true, isRevealed := false,
              type := w.type, level := w.level, phraseId := w.phraseId }
          else
            { id := w.id, text := w.text, isBlurred := w.isBlurred,
              isRevealed := w.isBlurred &&
                (userRevealedFor st article wa).contains (normalizeMask w.text),
              type := w.type, level := w.level, phraseId := w.phraseId })) ∧
      (∀ (k : Nat) (v : ViewWord), view[k]? = some v → v.isBlurred = false →
        v.isRevealed = false) := by
  refine ⟨maskedContent article (userRevealedFor st article wa), ?_, ?_, ?_, ?_⟩
  · unfold renderMasked
    rw [hA]
  · unfold maskedContent
    exact List.length_map article.content (maskWord (userRevealedFor st article wa))
  · intro k w hk
    rw [maskedContent_getElem?, hk]
    cases hb : w.isBlurred with
    | false =>
      rw [if_neg (by simp), Option.map_some', maskWord_notBlurred _ w hb]
      simp
    | true =>
      cases hr : (userRevealedFor st article wa).contains (normalizeMask w.text) with
      | false =>
        rw [if_pos ⟨rfl, rfl⟩, Option.map_some', maskWord_hidden _ w hb hr]
      | true =>
        rw [if_neg (by simp [hr]), Option.map_some', maskWord_revealed _ w hb hr]
        simp
  · intro k v hkv hbl
    rw [maskedContent_getElem?] at hkv
    cases hk : article.content[k]? with
    | none => rw [hk] at hkv; cases hkv
    | some w =>
      rw [hk, Option.map_some'] at hkv
      have hv : v = maskWord (userRevealedFor st article wa) w := by
        exact (Option.some.injEq _ _ ▸ hkv).symm
      subst hv
      have hwb : w.isBlurred = false := by
        rw [← (maskWord_fields (userRevealedFor st article wa) w).2.1]
        exact hbl
      rw [maskWord_notBlurred _ w hwb]

/-- Witness for C5 at the Adam article for an anonymous reader. -/
theorem C5_renderMasked_shape_witness :
    adamState.articles[0]? = some adamArticle ∧
    (renderMasked adamState 0 none).map List.length = some adamArticle.content.length := by
  obtain ⟨view, hview, hlen, _, _⟩ := C5_renderMasked_shape adamState 0 adamArticle none rfl
  refine ⟨rfl, ?_⟩
  rw [hview, Option.map_some', hlen]

/-- **C6**: `revealWord` fails with 404 when no token of the article
has the requested id and with 400 when the found token is not blurred;
every failure is `{ success := false, error, status }` with status 404
or 400, and leaves the whole state — in particular the reveal ledger
for all users and articles — unchanged. -/
theorem C6_reveal_failures :
    (∀ (st : ServerState) (ai : Nat) (artX : Article) (wid : String) (wa : Option String),
      st.articles[ai]? = some artX → (∀ v ∈ artX.content, v.id ≠ wid) →
      handleWordReveal st ai wid wa = (revealFailure "Word not found" 404, st)) ∧
    (∀ (st : ServerState) (ai : Nat) (artX : Article) (wid : String) (wa : Option String)
        (w : ArticleWord),
      st.articles[ai]? = some artX →
      artX.content.find? (fun v => v.id == wid) = some w → w.isBlurred = false →
      handleWordReveal st ai wid wa = (revealFailure "This word is not blurred" 400, st)) ∧
    (∀ (st : ServerState) (ai : Nat) (wid : String) (wa : Option String),
      (handleWordReveal st ai wid wa).1.success = false →
      (handleWordReveal st ai wid wa).2 = st ∧
      (handleWordReveal st ai wid wa).1.error.isSome = true ∧
      ((handleWordReveal st ai wid wa).1.status = 404 ∨
        (handleWordReveal st ai wid wa).1.status = 400)) := by
  refine ⟨?_, ?_, ?_⟩
  · intro st ai artX wid wa hA hno
    exact handleWordReveal_notFound_eq st ai wid wa artX hA hno
  · intro st ai artX wid wa w hA hF hB
    exact handleWordReveal_notBlurred_eq st ai wid wa artX w hA hF hB
  · intro st ai wid wa h
    exact handleWordReveal_failure_frame st ai wid wa h

/-- Witness for C6: revealing an unknown token id of the Adam article
fails with 404 and does not change the state. -/
theorem C6_reveal_failures_witness :
    handleWordReveal adamState 0 "w99" none = (revealFailure "Word not found" 404, adamState) :=
  C6_reveal_failures.1 adamState 0 adamArticle "w99" none rfl (by decide)

/-- A token's own normalized text is always among the texts its reveal
adds to the ledger. -/
theorem revealAdditions_self_mem (article : Article) (w : ArticleWord)
    (hw : w ∈ article.content) : normalizeMask w.text ∈ revealAdditions article w := by
  unfold revealAdditions
  cases hp : w.phraseId with
  | none => simp
  | some pid =>
    apply List.mem_map.mpr
    refine ⟨w, ?_, rfl⟩
    apply List.mem_filter.mpr
    exact ⟨hw, by simp [hp]⟩

/-- **C1**: two blurred tokens of one article with the same
mask-normalized text are always shown with the same `isRevealed` flag,
whatever the ledger state; and one successful `revealWord` on either
token makes the next `renderMasked` for that user show both with
`isRevealed = true`. -/
theorem C1_shared_normalized_coreveal :
    (∀ (article : Article) (rev : List String) (i j : Nat) (wi wj : ArticleWord),
      article.content[i]? = some wi → article.content[j]? = some wj →
      wi.isBlurred = true → wj.isBlurred = true →
      normalizeMask wi.text = normalizeMask wj.text →
      ((maskedContent article rev)[i]?).map ViewWord.isRevealed =
        ((maskedContent article rev)[j]?).map ViewWord.isRevealed) ∧
    (∀ (st : ServerState) (X : Nat) (artX : Article) (A : String) (i j : Nat)
        (wi wj : ArticleWord),
      st.articles[X]? = some artX →
      artX.content.find? (fun v => v.id == wi.id) = some wi →
      artX.content[i]? = some wi → artX.content[j]? = some wj →
      wi.isBlurred = true → wj.isBlurred = true →
      normalizeMask wi.text = normalizeMask wj.text →
      (handleWordReveal st X wi.id (some A)).1.success = true ∧
      ∃ view, renderMasked (handleWordReveal st X wi.id (some A)).2 X (some A) = some view ∧
        (view[i]?).map ViewWord.isRevealed = some true ∧
        (view[j]?).map ViewWord.isRevealed = some true) := by
  constructor
  · intro article rev i j wi wj hi hj hbi hbj hnorm
    rw [maskedContent_getElem?, maskedContent_getElem?, hi, hj]
    simp only [Option.map_some']
    cases hr : rev.contains (normalizeMask wi.text) with
    | true =>
      rw [maskWord_revealed rev wi hbi hr, maskWord_revealed rev wj hbj (hnorm ▸ hr)]
    | false =>
      rw [maskWord_hidden rev wi hbi hr, maskWord_hidden rev wj hbj (hnorm ▸ hr)]
  · intro st X artX A i j wi wj hA hF hi hj hbi hbj hnorm
    rw [handleWordReveal_success_eq st X wi.id (some A) artX wi hA hF hbi]
    refine ⟨rfl, ?_⟩
    set st2 : ServerState :=
      { st with revealedWords :=
          ledgerAdd st.revealedWords (lowerStr A) artX.id (revealAdditions artX wi) } with hst2
    set rev2 := userRevealedFor st2 artX (some A) with hrev2
    refine ⟨maskedContent artX rev2, ?_, ?_, ?_⟩
    · unfold renderMasked
      have : st2.articles[X]? = some artX := hA
      rw [this]
    · have hmem : normalizeMask wi.text ∈ rev2 := by
        rw [hrev2]
        unfold userRevealedFor
        rw [hst2]
        simp only
        rw [ledgerAdd_same]
        exact mem_foldl_insertS.mpr
          (Or.inr (revealAdditions_self_mem artX wi (List.mem_of_find?_eq_some hF)))
      rw [maskedContent_getElem?, hi, Option.map_some',
        maskWord_revealed rev2 wi hbi ((contains_iff_mem rev2 (normalizeMask wi.text)).mpr hmem)]
      rfl
    · have hmem : normalizeMask wj.text ∈ rev2 := by
        rw [← hnorm, hrev2]
        unfold userRevealedFor
        rw [hst2]
        simp only
        rw [ledgerAdd_same]
        exact mem_foldl_insertS.mpr
          (Or.inr (revealAdditions_self_mem artX wi (List.mem_of_find?_eq_some hF)))
      rw [maskedContent_getElem?, hj, Option.map_some',
        maskWord_revealed rev2 wj hbj ((contains_iff_mem rev2 (normalizeMask wj.text)).mpr hmem)]
      rfl

/-- Witness for C1 at the two "Adam" tokens of the example article. -/
theorem C1_shared_normalized_coreveal_witness :
    (handleWordReveal adamState 0 "w1" (some "0xAbC")).1.success = true := by
  have h := C1_shared_normalized_coreveal.2 adamState 0 adamArticle "0xAbC" 0 4
    ⟨"w1", "Adam", true, some "phrase-adam", WordType.text, none⟩
    ⟨"w5", "Adam", true, some "phrase-adam", WordType.text, none⟩
    rfl (by decide) (by decide) (by decide) rfl rfl rfl
  exact h.1

/-- The texts a phrase-bearing token's reveal adds to the ledger are
exactly the normalized texts of the tokens sharing its phrase id. -/
theorem mem_revealAdditions_phrase (article : Article) (w : ArticleWord) (pid : String)
    (hp : w.phraseId = some pid) (x : String) :
    x ∈ revealAdditions article w ↔
      ∃ v ∈ article.content, v.phraseId = some pid ∧ normalizeMask v.text = x := by
  unfold revealAdditions
  rw [hp]
  simp only [List.mem_map, List.mem_filter, beq_iff_eq]
  constructor
  · rintro ⟨v, ⟨hv, hvp⟩, rfl⟩
    exact ⟨v, hv, hvp, rfl⟩
  · rintro ⟨v, hv, hvp, rfl⟩
    exact ⟨v, ⟨hv, hvp⟩, rfl⟩

/-- **C4**: a successful `revealWord` on a token with a phrase-group id
adds exactly the normalized texts of all tokens sharing that group id
to the caller's ledger set for the article, after which the next
`renderMasked` for that caller shows every token of the group with
`isRevealed = true`; on a token with no phrase-group id only that
token's own normalized text is added. -/
theorem C4_phrase_group_ledger :
    (∀ (st : ServerState) (X : Nat) (artX : Article) (A wid : String) (w : ArticleWord)
        (pid : String),
      st.articles[X]? = some artX →
      artX.content.find? (fun v => v.id == wid) = some w →
      w.phraseId = some pid →
      (∀ v ∈ artX.content, v.phraseId.isSome = true → v.isBlurred = true) →
      (handleWordReveal st X wid (some A)).1.success = true ∧
      (∀ x, x ∈ (handleWordReveal st X wid (some A)).2.revealedWords (lowerStr A) artX.id ↔
        (x ∈ st.revealedWords (lowerStr A) artX.id ∨
          ∃ v ∈ artX.content, v.phraseId = some pid ∧ normalizeMask v.text = x)) ∧
      (∃ view, renderMasked (handleWordReveal st X wid (some A)).2 X (some A) = some view ∧
        ∀ (k : Nat) (v : ArticleWord), artX.content[k]? = some v → v.phraseId = some pid →
          (view[k]?).map ViewWord.isRevealed = some true)) ∧
    (∀ (st : ServerState) (X : Nat) (artX : Article) (A wid : String) (w : ArticleWord),
      st.articles[X]? = some artX →
      artX.content.find? (fun v => v.id == wid) = some w →
      w.phraseId = none → w.isBlurred = true →
      ∀ x, x ∈ (handleWordReveal st X wid (some A)).2.revealedWords (lowerStr A) artX.id ↔
        (x ∈ st.revealedWords (lowerStr A) artX.id ∨ x = normalizeMask w.text)) := by
  constructor
  · intro st X artX A wid w pid hA hF hp hInv
    have hw : w ∈ artX.content := List.mem_of_find?_eq_some hF
    have hb : w.isBlurred = true := hInv w hw (by rw [hp]; rfl)
    rw [handleWordReveal_success_eq st X wid (some A) artX w hA hF hb]
    refine ⟨rfl, ?_, ?_⟩
    · intro x
      simp only
      rw [ledgerAdd_same, mem_foldl_insertS, mem_revealAdditions_phrase artX w pid hp x]
    · refine ⟨maskedContent artX
        (ledgerAdd st.revealedWords (lowerStr A) artX.id (revealAdditions artX w)
          (lowerStr A) artX.id), ?_, ?_⟩
      · unfold renderMasked userRevealedFor
        simp only
        rw [hA]
      · intro k v hk hvp
        have hvb : v.isBlurred = true :=
          hInv v (List.getElem?_mem hk) (by rw [hvp]; rfl)
        have hmem : normalizeMask v.text ∈
            ledgerAdd st.revealedWords (lowerStr A) artX.id (revealAdditions artX w)
              (lowerStr A) artX.id := by
          rw [ledgerAdd_same, mem_foldl_insertS]
          exact Or.inr ((mem_revealAdditions_phrase artX w pid hp _).mpr
            ⟨v, List.getElem?_mem hk, hvp, rfl⟩)
        rw [maskedContent_getElem?, hk, Option.map_some',
          maskWord_revealed _ v hvb ((contains_iff_mem _ _).mpr hmem)]
        rfl
  · intro st X artX A wid w hA hF hp hb x
    rw [handleWordReveal_success_eq st X wid (some A) artX w hA hF hb]
    simp only
    rw [ledgerAdd_same, mem_foldl_insertS]
    unfold revealAdditions
    rw [hp]
    simp

/-- Witness for C4: revealing the first "augmented" token places the
normalized text of its phrase partner "reality" in the caller's ledger
entry. -/
theorem C4_phrase_group_ledger_witness :
    (handleWordReveal arState 0 "w1" (some "0xAbC")).1.success = true ∧
    ("reality" ∈ (handleWordReveal arState 0 "w1" (some "0xAbC")).2.revealedWords
      (lowerStr "0xAbC") arArticle.id) := by
  have h := C4_phrase_group_ledger.1 arState 0 arArticle "0xAbC" "w1"
    ⟨"w1", "augmented", true, some "phrase-augmented-reality", WordType.text, none⟩
    "phrase-augmented-reality" rfl (by decide) rfl (by decide)
  refine ⟨h.1, ?_⟩
  exact (h.2.1 "reality").mpr (Or.inr
    ⟨⟨"w2", "reality", true, some "phrase-augmented-reality", WordType.text, none⟩,
      by decide, rfl, by decide⟩)

/-- **C7**: a `revealWord` call by one wallet on one article never
touches the article list and mutates at most the ledger entry keyed by
the lowercased wallet and that article's id; the masked view of any
wallet with a different lowercased address, and of any article with a
different id, is unchanged — even where the same normalized word
occurs. -/
theorem C7_reveal_isolation (st : ServerState) (X : Nat) (artX : Article) (A wid : String)
    (hA : st.articles[X]? = some artX) :
    ((handleWordReveal st X wid (some A)).2.articles = st.articles) ∧
    (∀ u a, ¬(u = lowerStr A ∧ a = artX.id) →
      (handleWordReveal st X wid (some A)).2.revealedWords u a = st.revealedWords u a) ∧
    (∀ (B : String) (Y : Nat), lowerStr B ≠ lowerStr A →
      renderMasked (handleWordReveal st X wid (some A)).2 Y (some B) =
        renderMasked st Y (some B)) ∧
    (∀ (Y : Nat) (artY : Article), st.articles[Y]? = some artY → artY.id ≠ artX.id →
      ∀ wa, renderMasked (handleWordReveal st X wid (some A)).2 Y wa =
        renderMasked st Y wa) := by
  have hframe : ((handleWordReveal st X wid (some A)).2.articles = st.articles) ∧
      (∀ u a, ¬(u = lowerStr A ∧ a = artX.id) →
        (handleWordReveal st X wid (some A)).2.revealedWords u a = st.revealedWords u a) := by
    cases hF : artX.content.find? (fun v => v.id == wid) with
    | none =>
      rw [handleWordReveal_noneFound_eq st X wid (some A) artX hA hF]
      exact ⟨rfl, fun u a _ => rfl⟩
    | some w =>
      cases hB : w.isBlurred with
      | false =>
        rw [handleWordReveal_notBlurred_eq st X wid (some A) artX w hA hF hB]
        exact ⟨rfl, fun u a _ => rfl⟩
      | true =>
        rw [handleWordReveal_success_eq st X wid (some A) artX w hA hF hB]
        refine ⟨rfl, fun u a hu => ?_⟩
        simp only
        exact ledgerAdd_other st.revealedWords (lowerStr A) artX.id (revealAdditions artX w)
          u a hu
  refine ⟨hframe.1, hframe.2, ?_, ?_⟩
  · intro B Y hBA
    unfold renderMasked
    rw [hframe.1]
    cases hY : st.articles[Y]? with
    | none => rfl
    | some artY =>
      unfold userRevealedFor
      dsimp only
      rw [hframe.2 (lowerStr B) artY.id (fun hc => hBA hc.1)]
  · intro Y artY hY hid wa
    unfold renderMasked
    rw [hframe.1, hY]
    cases wa with
    | none => rfl
    | some B =>
      unfold userRevealedFor
      dsimp only
      rw [hframe.2 (lowerStr B) artY.id (fun hc => hid hc.2)]

/-- Witness for C7: the reveal by one wallet leaves another wallet's
ledger entry untouched. -/
theorem C7_reveal_isolation_witness :
    (handleWordReveal adamState 0 "w1" (some "0xAbC")).2.revealedWords "0xother" "adam-article" =
      adamState.revealedWords "0xother" "adam-article" :=
  (C7_reveal_isolation adamState 0 adamArticle "0xAbC" "w1" rfl).2.1 "0xother" "adam-article"
    (by decide)

/-- Counterexample to **C2** as stated: in the Adam article the blur
target "Adam" is a single word, yet revealing the first "Adam" token
returns "Adam Adam" (all tokens sharing the phrase id, across both
occurrences), not the clicked token's surface text "Adam". -/
theorem C2_text_counterexample :
    (adamArticle.content.find? (fun v => v.id == "w1")).map ArticleWord.text = some "Adam" ∧
    (handleWordReveal adamState 0 "w1" (some "0xabc")).1.success = true ∧
    (handleWordReveal adamState 0 "w1" (some "0xabc")).1.text = some "Adam Adam" ∧
    (handleWordReveal adamState 0 "w1" (some "0xabc")).1.text ≠
      (adamArticle.content.find? (fun v => v.id == "w1")).map ArticleWord.text := by
  refine ⟨by decide, by decide, by decide, by decide⟩

/-- **C2 amended**: the text returned by a successful `revealWord` is
the space-join of the surface texts of all tokens sharing the clicked
token's `phraseId` (the clicked token's own text when it has no
`phraseId`); when the blur target occurs exactly once, as in the
"augmented reality" example, this is the joined matched phrase the
claim describes. -/
theorem C2_text_amended :
    (∀ (st : ServerState) (ai : Nat) (artX : Article) (wid : String) (wa : Option String)
        (w : ArticleWord),
      st.articles[ai]? = some artX →
      artX.content.find? (fun v => v.id == wid) = some w → w.isBlurred = true →
      (handleWordReveal st ai wid wa).1.success = true ∧
      (w.phraseId.isSome = true →
        (handleWordReveal st ai wid wa).1.text = some (String.intercalate " "
          ((artX.content.filter (fun v => v.phraseId == w.phraseId)).map ArticleWord.text))) ∧
      (w.phraseId = none → (handleWordReveal st ai wid wa).1.text = some w.text)) ∧
    ((handleWordReveal arState 0 "w1" (some "0xabc")).1.text = some "augmented reality") := by
  constructor
  · intro st ai artX wid wa w hA hF hB
    rw [handleWordReveal_success_eq st ai wid wa artX w hA hF hB]
    refine ⟨rfl, ?_, ?_⟩
    · intro hp
      unfold displayTextOf
      cases hps : w.phraseId with
      | none => rw [hps] at hp; cases hp
      | some pid => rfl
    · intro hp
      unfold displayTextOf
      rw [hp]
  · decide

/-- Witness for the amended C2 at the Adam article. -/
theorem C2_text_amended_witness :
    (handleWordReveal adamState 0 "w1" (some "0xabc")).1.text = some (String.intercalate " "
      ((adamArticle.content.filter
        (fun v => v.phraseId == some "phrase-adam")).map ArticleWord.text)) := by
  have h := (C2_text_amended.1 adamState 0 adamArticle "w1" (some "0xabc")
    ⟨"w1", "Adam", true, some "phrase-adam", WordType.text, none⟩
    rfl (by decide) rfl).2.1 rfl
  exact h

/-- Counterexample to **C3** as stated: after revealing the
"augmented" token of the "augmented reality" example, the code reports
1 instance (tokens blurred with the clicked token's normalized text),
but the number of token instances satisfying
"isBlurred && normalized-text ∈ ledger" after the mutation is 2. -/
theorem C3_count_counterexample :
    (arArticle.content.find? (fun v => v.id == "w1")).map (totalInstances arArticle) =
      some 1 ∧
    (handleWordReveal arState 0 "w1" (some "0xabc")).1.message =
      some "Word revealed: \"augmented reality\"" ∧
    specInstanceCount arArticle
      ((handleWordReveal arState 0 "w1" (some "0xabc")).2.revealedWords
        (lowerStr "0xabc") arArticle.id) = 2 ∧
    (arArticle.content.find? (fun v => v.id == "w1")).map (totalInstances arArticle) ≠
      some (specInstanceCount arArticle
        ((handleWordReveal arState 0 "w1" (some "0xabc")).2.revealedWords
          (lowerStr "0xabc") arArticle.id)) := by
  refine ⟨by decide, by decide, by decide, by decide⟩

/-- **C3 amended**: the reported instance count is the number of
blurred tokens whose mask-normalized text equals the clicked token's
(the message embeds it when it exceeds 1); in the spec's own Adam
example this count is 2 and coincides there with the spec's
ledger-membership count. -/
theorem C3_count_amended :
    (∀ (st : ServerState) (ai : Nat) (artX : Article) (wid : String) (wa : Option String)
        (w : ArticleWord),
      st.articles[ai]? = some artX →
      artX.content.find? (fun v => v.id == wid) = some w → w.isBlurred = true →
      (handleWordReveal st ai wid wa).1.message =
        some (revealMessage (displayTextOf artX w)
          ((artX.content.filter (fun v =>
            normalizeMask v.text == normalizeMask w.text && v.isBlurred)).length))) ∧
    ((adamArticle.content.find? (fun v => v.id == "w1")).map (totalInstances adamArticle) =
        some 2 ∧
      (handleWordReveal adamState 0 "w1" (some "0xabc")).1.message =
        some "Word revealed: \"Adam Adam\" (2 instances unlocked)" ∧
      specInstanceCount adamArticle
        ((handleWordReveal adamState 0 "w1" (some "0xabc")).2.revealedWords
          (lowerStr "0xabc") adamArticle.id) = 2) := by
  constructor
  · intro st ai artX wid wa w hA hF hB
    rw [handleWordReveal_success_eq st ai wid wa artX w hA hF hB]
    rfl
  · refine ⟨by decide, by decide, by decide⟩

/-- Witness for the amended C3 at the "augmented reality" article. -/
theorem C3_count_amended_witness :
    (handleWordReveal arState 0 "w1" (some "0xabc")).1.message =
      some (revealMessage (displayTextOf arArticle
        ⟨"w1", "augmented", true, some "phrase-augmented-reality", WordType.text, none⟩)
        ((arArticle.content.filter (fun v =>
          normalizeMask v.text == normalizeMask "augmented" && v.isBlurred)).length)) := by
  have h := C3_count_amended.1 arState 0 arArticle "w1" (some "0xabc")
    ⟨"w1", "augmented", true, some "phrase-augmented-reality", WordType.text, none⟩
    rfl (by decide) rfl
  exact h
